import Mathlib

/-!
Verification of the `hvm` vault-sync engine (`internal/vaultsync/vaultsync.go`,
`cmd/hvm.go`).  The Go code is shallowly embedded: pure computations become
Lean functions; the two vault clients become explicit state (a `World`) plus
failure oracles (an `Env`); the `Sync` dispatch loop, whose Go form can fail
to terminate, is given fuelled small-step semantics; goroutine fan-out with a
`WaitGroup` barrier is modelled by a nondeterministic scheduler relation.
-/

namespace Vaultsync

/-! ## JSON document model

`vault.Client.Read` produces `map[string]interface` data decoded from JSON;
`Syncer.eq` marshals two such values with `encoding/json` and compares their
SHA-256 digests.  `JValue` models the dynamic JSON values, with objects as
association lists so that field order is observable (the point of claim C7).
-/

/-- A dynamic JSON value as handled by `encoding/json` (numbers simplified to
integers; object fields kept in their given order). -/
inductive JValue where
  | null
  | bool (b : Bool)
  | num (n : Int)
  | str (s : String)
  | arr (xs : List JValue)
  | obj (fs : List (String × JValue))

/-- Output alphabet of the serializer: one token per JSON lexeme emitted by
`encoding/json.Marshal`.  Working at token level abstracts the byte-level
escaping of the library (whose rendering of distinct token streams is
injective) while keeping the structure of the marshalled output exact. -/
inductive Tok where
  | lbrace | rbrace | lbrack | rbrack | comma | colon
  | jnull
  | jbool (b : Bool)
  | jnum (n : Int)
  | jstr (s : String)
deriving DecidableEq

/-- Key order used by `encoding/json` when marshalling a map: it sorts the
field names. -/
def keyLe (a b : String × JValue) : Prop := a.1 ≤ b.1

instance : DecidableRel keyLe := fun a b => inferInstanceAs (Decidable (a.1 ≤ b.1))

instance : IsTotal (String × JValue) keyLe := ⟨fun a b => le_total a.1 b.1⟩

instance : IsTrans (String × JValue) keyLe := ⟨fun _ _ _ h1 h2 => le_trans h1 h2⟩

/-- Sort an object's fields by key, as `encoding/json.Marshal` does for maps. -/
def sortByKey (fs : List (String × JValue)) : List (String × JValue) :=
  fs.insertionSort keyLe

/-- Recursive canonical form: every object's fields sorted by key, at every
nesting level.  `encoding/json.Marshal` serializes exactly this form. -/
def canon : JValue → JValue
  | .null => .null
  | .bool b => .bool b
  | .num n => .num n
  | .str s => .str s
  | .arr xs => .arr (xs.attach.map (fun x => canon x.1))
  | .obj fs => .obj (sortByKey (fs.attach.map (fun f => (f.1.1, canon f.1.2))))
decreasing_by
  · have := List.sizeOf_lt_of_mem x.2
    simp only [JValue.arr.sizeOf_spec]
    omega
  · have h1 := List.sizeOf_lt_of_mem f.2
    have h2 : sizeOf f.1.2 < sizeOf f.1 := by
      obtain ⟨⟨a, b⟩, hm⟩ := f
      simp only [Prod.mk.sizeOf_spec]
      omega
    simp only [JValue.obj.sizeOf_spec]
    omega

/-- Comma-separated concatenation of serialized items, as in a JSON array or
object body. -/
def joinComma : List (List Tok) → List Tok
  | [] => []
  | [ts] => ts
  | ts :: rest => ts ++ .comma :: joinComma rest

/-- Plain structural serializer (no reordering); `encoding/json.Marshal` is
modelled as `serRaw` applied to the canonical form. -/
def serRaw : JValue → List Tok
  | .null => [.jnull]
  | .bool b => [.jbool b]
  | .num n => [.jnum n]
  | .str s => [.jstr s]
  | .arr xs => .lbrack :: (joinComma (xs.attach.map (fun x => serRaw x.1)) ++ [.rbrack])
  | .obj fs =>
      .lbrace ::
        (joinComma (fs.attach.map (fun f => .jstr f.1.1 :: .colon :: serRaw f.1.2)) ++ [.rbrace])
decreasing_by
  · have := List.sizeOf_lt_of_mem x.2
    simp only [JValue.arr.sizeOf_spec]
    omega
  · have h1 := List.sizeOf_lt_of_mem f.2
    have h2 : sizeOf f.1.2 < sizeOf f.1 := by
      obtain ⟨⟨a, b⟩, hm⟩ := f
      simp only [Prod.mk.sizeOf_spec]
      omega
    simp only [JValue.obj.sizeOf_spec]
    omega

/-- Serialization of one object entry (`"key": value`). -/
def serEntry (kv : String × JValue) : List Tok := .jstr kv.1 :: .colon :: serRaw kv.2

/-- The first token of a value's serialization, determined by its
constructor. -/
def headTok : JValue → Tok
  | .null => .jnull
  | .bool b => .jbool b
  | .num n => .jnum n
  | .str s => .jstr s
  | .arr _ => .lbrack
  | .obj _ => .lbrace

/-- What follows the first item of a comma-separated sequence: either the
closer `z` directly, or a comma and the remaining items before `z`. -/
def tailSeq : List (List Tok) → List Tok → List Tok
  | [], z => z
  | its@(_ :: _), z => .comma :: (joinComma its ++ z)

/-- `json.Marshal` of a dynamic value: canonicalize (the library sorts each
map's keys at every level) and serialize. -/
def marshal (v : JValue) : List Tok := serRaw (canon v)

/-- `crypto/sha256.Sum256`, modelled as an idealized collision-free digest:
the digest is represented by the message itself, so digest equality is
message equality.  (Equal inputs give equal digests exactly as in Go; the
idealization is that distinct inputs give distinct digests.) -/
def sha256sum (msg : List Tok) : List Tok := msg

/-- `Syncer.eq` (vaultsync.go:186-203): marshal both values and compare the
SHA-256 digests.  (`json.Marshal` cannot fail on JSON-decoded dynamic values,
so the error branches returning `false` are dead here.) -/
def eq (src dest : JValue) : Bool :=
  decide (sha256sum (marshal src) = sha256sum (marshal dest))

/-- Go map indexing `m["data"]` on a dynamic value: the field's value, or the
nil interface (JSON `null`) when the key is absent or the value is not a map. -/
def lookupKey (k : String) : List (String × JValue) → Option JValue
  | [] => none
  | kv :: rest => if kv.1 = k then some kv.2 else lookupKey k rest

/-- `resp.Data["data"]`-style access used by `doSync` (vaultsync.go:179). -/
def getField (v : JValue) (k : String) : JValue :=
  match v with
  | .obj fs => (lookupKey k fs).getD .null
  | _ => .null

/-- Well-formed dynamic value: no duplicate field names in any object, at any
nesting level (guaranteed for values decoded from JSON into Go maps). -/
inductive WFJ : JValue → Prop
  | null : WFJ .null
  | bool (b : Bool) : WFJ (.bool b)
  | num (n : Int) : WFJ (.num n)
  | str (s : String) : WFJ (.str s)
  | arr {xs : List JValue} (h : ∀ x ∈ xs, WFJ x) : WFJ (.arr xs)
  | obj {fs : List (String × JValue)} (hnd : (fs.map Prod.fst).Nodup)
      (h : ∀ kv ∈ fs, WFJ kv.2) : WFJ (.obj fs)

/-- "Identical field values but different field ordering" (claim C7): the two
values agree everywhere except that, at each nesting level, an object's field
list of one may be an arbitrary permutation of the other's.  Array element
order is significant in JSON and is preserved. -/
inductive Reorder : JValue → JValue → Prop
  | null : Reorder .null .null
  | bool (b : Bool) : Reorder (.bool b) (.bool b)
  | num (n : Int) : Reorder (.num n) (.num n)
  | str (s : String) : Reorder (.str s) (.str s)
  | arr {xs ys : List JValue} (hlen : xs.length = ys.length)
      (h : ∀ (i : Nat) (h1 : i < xs.length) (h2 : i < ys.length),
        Reorder (xs.get ⟨i, h1⟩) (ys.get ⟨i, h2⟩)) :
      Reorder (.arr xs) (.arr ys)
  | obj {fs mid gs : List (String × JValue)} (hlen : fs.length = mid.length)
      (hkeys : ∀ (i : Nat) (h1 : i < fs.length) (h2 : i < mid.length),
        (fs.get ⟨i, h1⟩).1 = (mid.get ⟨i, h2⟩).1)
      (hvals : ∀ (i : Nat) (h1 : i < fs.length) (h2 : i < mid.length),
        Reorder (fs.get ⟨i, h1⟩).2 (mid.get ⟨i, h2⟩).2)
      (hperm : mid.Perm gs) :
      Reorder (.obj fs) (.obj gs)

/-! ## Configuration and token resolution (`initVault`, vaultsync.go:58-92)

Subprocess execution (`exec.Command(...).Output()`) is an external
collaborator, modelled as an oracle from the configured command string to its
result.  `bytes.TrimSpace` and `bytes.HasPrefix` are modelled at character
level, since the byte-level Go originals operate on the raw captured output.
-/

/-- `bytes.TrimSpace`: drop leading and trailing whitespace. -/
def trimChars (l : List Char) : List Char :=
  ((l.dropWhile Char.isWhitespace).reverse.dropWhile Char.isWhitespace).reverse

/-- `string(bytes.TrimSpace(b))` on a captured output string. -/
def trimSpace (s : String) : String := ⟨trimChars s.data⟩

/-- `bytes.HasPrefix s p`: the first argument starts with the second. -/
def leadsWith : List Char → List Char → Bool
  | _, [] => true
  | [], _ :: _ => false
  | c :: cs, p :: ps => c == p && leadsWith cs ps

/-- Result of running the configured token command as a subprocess. -/
inductive CmdResult where
  | ok (stdout : String)
  | err

/-- Per-endpoint configuration (`vaultsync.Vault`, cmd/hvm.go); Go's zero
value `""` plays the role of "not supplied". -/
structure Vault where
  address : String
  token : String
  tokenCmd : String
  mount : String
  path : String

/-- `vaultsync.Config` (cmd/hvm.go): batch size plus the two endpoints.
`BatchSize` is a Go `int`; it is modelled as `Int` because no validation
constrains it. -/
structure Config where
  batchSize : Int
  sourceVault : Vault
  destinationVault : Vault

/-- Token resolution inside `Syncer.initVault` (vaultsync.go:63-80): the
`switch` tries the command first, then the literal token, else fails.  When a
command is configured, its raw standard output must carry the `hvs.` vault
token marker; only then is the whitespace-trimmed output used as the token.
(The client construction and `SetToken` that follow are transport concerns of
the external vault client and are outside this model.) -/
def initVault (runTokenCmd : String → CmdResult) (cfg : Vault) : Except String String :=
  if cfg.tokenCmd ≠ "" then
    match runTokenCmd cfg.tokenCmd with
    | .err => .error "failed to execute token command"
    | .ok b =>
        if leadsWith b.data "hvs.".data then .ok (trimSpace b)
        else .error "token command did not return a vault token"
  else if cfg.token ≠ "" then .ok cfg.token
  else .error "no token provided"

/-! ## The sync engine (`listSourcePath`, `doSync`, `batchSync`, `Sync`)

The two vault stores are explicit state (`World`); transport-level failures
of the client calls are failure oracles (`Env`).  Every store call performed
is recorded as an `Op`, preserving which client (source or destination) it
was issued against.
-/

/-- Which vault client a store operation is issued against. -/
inductive Client where
  | source
  | destination
deriving DecidableEq

/-- One store call performed by the engine. -/
inductive Op where
  | list (c : Client) (p : String)
  | read (c : Client) (p : String)
  | write (c : Client) (p : String) (v : JValue)

/-- Per-key result of `doSync`, per its four exit points
(vaultsync.go:163-183). -/
inductive SyncOutcome where
  | synced
  | readFailed
  | writeFailed
  | verifyReadFailed
  | mismatch
deriving DecidableEq

/-- Contents of the two vaults, by full data path. -/
structure World where
  src : String → Option JValue
  dst : String → Option JValue

/-- Environment oracles: outcome of the single metadata `List` call, and
transport-failure switches for each data-path call.  For `listKeys`:
`none` = the call errored; `some none` = response whose `Data` has no
`keys` array (or a non-array value there); `some (some ks)` = a `keys`
array holding `ks` (possibly empty). -/
structure Env where
  listKeys : Option (Option (List String))
  srcReadFails : String → Bool
  dstWriteFails : String → Bool
  dstReadFails : String → Bool

/-- Output of one `doSync` worker: updated stores, calls performed, outcome. -/
structure StepOut where
  world : World
  ops : List Op
  outcome : SyncOutcome

/-- `Syncer.doSync` (vaultsync.go:157-184) for one key: read the secret at
`mount/data/path` from the source; write the document verbatim to the same
path on the destination; read it back; compare `Data["data"]` digests.  Each
failure is terminal for the key and only logged (modelled by the returned
outcome).  A `Read` fails if the transport fails or the path holds no secret
(vault answers 404). -/
def doSync (env : Env) (w : World) (mount path : String) : StepOut :=
  let fp := mount ++ "/data/" ++ path
  match (if env.srcReadFails fp then none else w.src fp) with
  | none => ⟨w, [.read .source fp], .readFailed⟩
  | some doc =>
    if env.dstWriteFails fp then
      ⟨w, [.read .source fp, .write .destination fp doc], .writeFailed⟩
    else
      let w' : World := ⟨w.src, fun p => if p = fp then some doc else w.dst p⟩
      let ops := [.read .source fp, .write .destination fp doc, .read .destination fp]
      if env.dstReadFails fp then
        ⟨w', ops, .verifyReadFailed⟩
      else
        match w'.dst fp with
        | none => ⟨w', ops, .verifyReadFailed⟩
        | some destDoc =>
          if eq (getField doc "data") (getField destDoc "data") then
            ⟨w', ops, .synced⟩
          else
            ⟨w', ops, .mismatch⟩

/-- Output of one batch: updated stores, calls performed, per-key outcomes. -/
structure BatchOut where
  world : World
  ops : List Op
  outcomes : List (String × SyncOutcome)

/-- `Syncer.batchSync` (vaultsync.go:138-145): one `doSync` per key of the
batch, joined by `wg.Wait()` before returning.  This functional semantics
commits to the in-batch interleaving that runs workers in list order; the
scheduler model below covers the concurrent interleavings. -/
def batchSync (env : Env) (w : World) (mount path : String) : List String → BatchOut
  | [] => ⟨w, [], []⟩
  | item :: rest =>
    let r := doSync env w mount (path ++ item)
    let b := batchSync env r.world mount path rest
    ⟨b.world, r.ops ++ b.ops, (path ++ item, r.outcome) :: b.outcomes⟩

/-- `Syncer.listSourcePath` (vaultsync.go:106-126): one `List` call on
`mount/metadata/path`; a transport error or a response without a `keys`
array is an error; otherwise the keys are returned — including when the
array is empty. -/
def listSourcePath (env : Env) (mount path : String) :
    List Op × Except String (List String) :=
  ([.list .source (mount ++ "/metadata/" ++ path)],
    match env.listKeys with
    | none => .error "failed to list source path"
    | some none => .error "failed to list source path: vault returned an empty list"
    | some (some keys) => .ok keys)

/-- How a `Sync` run ends: an error return, a nil return, or no return at
all within the given fuel (the Go loop either diverges — `BatchSize = 0` —
or panics on a bad slice bound — `BatchSize < 0`). -/
inductive RunResult where
  | failed (msg : String)
  | done
  | noReturn
deriving DecidableEq

/-- Output of a whole run: final stores, calls, per-key outcomes, the batch
slices dispatched in order, and how the run ended. -/
structure RunOut where
  world : World
  ops : List Op
  outcomes : List (String × SyncOutcome)
  batches : List (List String)
  result : RunResult

/-- The batching loop of `Syncer.Sync` (vaultsync.go:229-236), fuelled: from
index `i`, while `i < len(srcList)` take the slice `srcList[i:end]` with
`end = min(i+batchSize, len(srcList))` (a slice with bounds out of range
panics), dispatch it through `batchSync`, and advance `i` by `batchSize`. -/
def syncLoop (env : Env) (mount path : String) (keys : List String) (bs : Int) :
    Nat → Int → World → RunOut
  | 0, _, w => ⟨w, [], [], [], .noReturn⟩
  | fuel + 1, i, w =>
    if i < (keys.length : Int) then
      let e : Int := if i + bs > (keys.length : Int) then (keys.length : Int) else i + bs
      if 0 ≤ i ∧ i ≤ e then
        let batch := (keys.drop i.toNat).take (e - i).toNat
        let b := batchSync env w mount path batch
        let r := syncLoop env mount path keys bs fuel (i + bs) b.world
        ⟨r.world, b.ops ++ r.ops, b.outcomes ++ r.outcomes, batch :: r.batches, r.result⟩
      else ⟨w, [], [], [], .noReturn⟩
    else ⟨w, [], [], [], .done⟩

/-- `Syncer.Sync` (vaultsync.go:218-240): enumerate the source path; on
error return the wrapped error; otherwise run the batching loop over the
enumerated keys and return nil. -/
def Sync (cfg : Config) (env : Env) (w : World) (fuel : Nat) : RunOut :=
  let l := listSourcePath env cfg.sourceVault.mount cfg.sourceVault.path
  match l.2 with
  | .error msg => ⟨w, l.1, [], [], .failed ("failed to list source path: " ++ msg)⟩
  | .ok srcList =>
    let r := syncLoop env cfg.sourceVault.mount cfg.sourceVault.path srcList
      cfg.batchSize fuel 0 w
    ⟨r.world, l.1 ++ r.ops, r.outcomes, r.batches, r.result⟩

/-- The batch plan as contiguous order-preserving slices (the closed form of
the loop above for positive batch sizes; the `bs = 0` behaviour of this
total function is junk and is never related to the loop). -/
def chunks : List String → Nat → List (List String)
  | [], _ => []
  | k :: ks, bs => ((k :: ks).take bs) :: chunks (ks.drop (bs - 1)) bs
termination_by l _ => l.length
decreasing_by
  simp only [List.length_drop, List.length_cons]
  omega

/-- Does this operation write to the given client? -/
def isWriteTo (c : Client) : Op → Bool
  | .write c' _ _ => c' == c
  | _ => false

/-! ## Scheduler model of the goroutine fan-out (claim C6)

`batchSync` spawns one goroutine per key and blocks on `wg.Wait()`; `Sync`
calls `batchSync` once per batch, in order.  The interleaving semantics: a
state holds the batches not yet dispatched, the workers of the current batch
(each an ordered list of store calls still to perform), and the trace of
calls performed so far, tagged with batch index and key.  A step either
dispatches the next batch — possible only when every in-flight worker has
finished, which is exactly the `wg.Wait()` barrier — or lets an arbitrary
in-flight worker perform its next store call. -/

/-- One goroutine spawned by `batchSync`: its batch, its key, and the store
calls it has yet to perform. -/
structure Worker where
  batchIdx : Nat
  key : String
  remaining : List Op

/-- Scheduler state of a run. -/
structure Sched where
  nextIdx : Nat
  pending : List (List String)
  inflight : List Worker
  trace : List (Nat × String × Op)

/-- Workers of one batch, as spawned by the `go s.doSync(...)` loop
(vaultsync.go:140-143); `opsOf` gives the store calls a key's worker will
perform (up to three: source read, destination write, destination read). -/
def spawn (opsOf : String → List Op) (idx : Nat) (batch : List String) : List Worker :=
  batch.map (fun k => ⟨idx, k, opsOf k⟩)

/-- Initial state of `Sync` after enumeration: all batches pending, nothing
in flight, empty trace. -/
def initSched (keys : List String) (bs : Nat) : Sched :=
  ⟨0, chunks keys bs, [], []⟩

/-- One scheduler step. -/
inductive SchedStep (opsOf : String → List Op) : Sched → Sched → Prop
  | dispatch {s : Sched} {b : List String} {rest : List (List String)}
      (hdone : ∀ w ∈ s.inflight, w.remaining = [])
      (hp : s.pending = b :: rest) :
      SchedStep opsOf s ⟨s.nextIdx + 1, rest, spawn opsOf s.nextIdx b, s.trace⟩
  | work {s : Sched} (i : Nat) (hi : i < s.inflight.length) {op : Op} {rest : List Op}
      (hop : (s.inflight.get ⟨i, hi⟩).remaining = op :: rest) :
      SchedStep opsOf s
        ⟨s.nextIdx, s.pending,
          s.inflight.set i
            ⟨(s.inflight.get ⟨i, hi⟩).batchIdx, (s.inflight.get ⟨i, hi⟩).key, rest⟩,
          s.trace ++ [((s.inflight.get ⟨i, hi⟩).batchIdx, (s.inflight.get ⟨i, hi⟩).key, op)]⟩

/-- Reachability under the scheduler. -/
inductive Reaches (opsOf : String → List Op) (s0 : Sched) : Sched → Prop
  | refl : Reaches opsOf s0 s0
  | tail {s s' : Sched} (h : Reaches opsOf s0 s) (hs : SchedStep opsOf s s') :
      Reaches opsOf s0 s'

/-- Invariant of the scheduler: in-flight workers all belong to the batch
dispatched last; every traced call belongs to an already-dispatched batch;
the trace is monotone in batch index; pending batches and the in-flight set
are bounded by the batch size. -/
def SchedInv (bs : Nat) (s : Sched) : Prop :=
  (∀ w ∈ s.inflight, w.batchIdx + 1 = s.nextIdx) ∧
  (∀ e ∈ s.trace, e.1 < s.nextIdx) ∧
  List.Pairwise (fun e1 e2 : Nat × String × Op => e1.1 ≤ e2.1) s.trace ∧
  (∀ b ∈ s.pending, b.length ≤ bs) ∧
  s.inflight.length ≤ bs

/-! ## Theorems -/

/-! ### Token resolution (claims C8, C9) -/

theorem initVault_cmd_branch (cfg : Vault) (run : String → CmdResult) (b : String)
    (hcmd : cfg.tokenCmd ≠ "") (hout : run cfg.tokenCmd = .ok b) :
    initVault run cfg =
      (if leadsWith b.data "hvs.".data then .ok (trimSpace b)
       else .error "token command did not return a vault token") := by
  unfold initVault
  rw [if_pos hcmd, hout]

/-- Claim C8 (corrected): when the token command's subprocess succeeds, the
RAW captured standard output must carry the `hvs.` marker; only if the raw
output matches is the whitespace-trimmed output used as the token, and any
raw output without the marker — even one whose trimmed form carries it —
fails token resolution. -/
theorem initVault_raw_output_marker
    (cfg : Vault) (run : String → CmdResult) (b : String)
    (hcmd : cfg.tokenCmd ≠ "") (hout : run cfg.tokenCmd = .ok b) :
    (leadsWith b.data "hvs.".data = true → initVault run cfg = .ok (trimSpace b)) ∧
    (leadsWith b.data "hvs.".data = false →
      initVault run cfg = .error "token command did not return a vault token") := by
  rw [initVault_cmd_branch cfg run b hcmd hout]
  constructor <;> intro h <;> simp [h]

/-- Claim C8 counterexample: a successful command whose output is the valid
token preceded by a newline.  The trimmed output carries the expected `hvs.`
marker, so the claim requires resolution to succeed, but `initVault` checks
the marker on the raw output and fails. -/
theorem initVault_trimmed_marker_counterexample :
    leadsWith (trimSpace "\nhvs.tok").data "hvs.".data = true ∧
    initVault (fun _ => .ok "\nhvs.tok") ⟨"a", "", "c", "m", "p"⟩ =
      .error "token command did not return a vault token" := by
  constructor
  · decide
  · rfl

/-- Claim C8 witness. -/
theorem initVault_raw_output_marker_witness :
    initVault (fun _ => .ok "hvs.t ") ⟨"a", "", "c", "m", "p"⟩ = .ok (trimSpace "hvs.t ") :=
  (initVault_raw_output_marker ⟨"a", "", "c", "m", "p"⟩ (fun _ => .ok "hvs.t ") "hvs.t "
    (by decide) rfl).1 (by decide)

/-- Claim C9 (corrected): a credential spec with NEITHER the literal token
nor the command set fails as an invalid configuration; but when BOTH are
set, `initVault` does not fail — the command takes precedence and the
literal token is ignored, so resolution behaves exactly as if only the
command were configured. -/
theorem initVault_token_spec_precedence (cfg : Vault) (run : String → CmdResult) :
    (cfg.token = "" → cfg.tokenCmd = "" →
      initVault run cfg = .error "no token provided") ∧
    (cfg.tokenCmd ≠ "" →
      initVault run cfg =
        initVault run ⟨cfg.address, "", cfg.tokenCmd, cfg.mount, cfg.path⟩) := by
  constructor
  · intro ht hc
    unfold initVault
    rw [if_neg (by simp [hc]), if_neg (by simp [ht])]
  · intro hc
    unfold initVault
    rw [if_pos hc, if_pos hc]

/-- Claim C9 counterexample: a configuration with BOTH a literal token and a
token command set.  The claim requires token resolution to fail as an
invalid configuration, but `initVault` succeeds, resolving via the command
branch. -/
theorem initVault_both_set_counterexample :
    initVault (fun _ => .ok "hvs.x") ⟨"a", "tok", "c", "m", "p"⟩ =
      .ok (trimSpace "hvs.x") := by
  rfl

/-- Claim C9 witness. -/
theorem initVault_token_spec_precedence_witness :
    initVault (fun _ => .ok "hvs.x") ⟨"a", "", "", "m", "p"⟩ =
      .error "no token provided" :=
  (initVault_token_spec_precedence ⟨"a", "", "", "m", "p"⟩ (fun _ => .ok "hvs.x")).1
    rfl rfl

/-! ### Enumeration and run-level behaviour (claims C1, C3, C4) -/

/-- Claim C1 (corrected): a listing response WITHOUT a `keys` array fails
enumeration with the empty-listing error and `Sync` aborts — no batch is
formed, no worker runs, the only store call is the metadata `List`.  But a
listing response whose `keys` array is present and EMPTY is accepted:
enumeration succeeds with zero keys and `Sync` returns success (still
dispatching no worker), rather than aborting with an error. -/
theorem Sync_empty_listing (cfg : Config) (env : Env) (w : World) (fuel : Nat) :
    (env.listKeys = some none →
      (Sync cfg env w fuel).result =
          .failed ("failed to list source path: " ++
            "failed to list source path: vault returned an empty list") ∧
        (Sync cfg env w fuel).batches = [] ∧
        (Sync cfg env w fuel).outcomes = [] ∧
        (Sync cfg env w fuel).ops =
          [.list .source (cfg.sourceVault.mount ++ "/metadata/" ++ cfg.sourceVault.path)]) ∧
    (env.listKeys = some (some []) → 0 < fuel →
      (Sync cfg env w fuel).result = .done ∧
        (Sync cfg env w fuel).batches = [] ∧
        (Sync cfg env w fuel).outcomes = [] ∧
        (Sync cfg env w fuel).ops =
          [.list .source (cfg.sourceVault.mount ++ "/metadata/" ++ cfg.sourceVault.path)]) := by
  constructor
  · intro h
    simp [Sync, listSourcePath, h]
  · intro h hfuel
    obtain ⟨f, rfl⟩ : ∃ f, fuel = f + 1 := ⟨fuel - 1, by omega⟩
    simp [Sync, listSourcePath, h, syncLoop]

/-- Claim C1 counterexample: the source listing returns zero keys (an empty
`keys` array).  The claim requires `Sync` to abort with a run-level
`EmptyListing` error, but the run returns success. -/
theorem Sync_empty_keys_counterexample :
    (Sync ⟨100, ⟨"a", "t", "", "secret", "team/"⟩, ⟨"b", "t", "", "secret", "team/"⟩⟩
        ⟨some (some []), fun _ => false, fun _ => false, fun _ => false⟩
        ⟨fun _ => none, fun _ => none⟩ 1).result = .done ∧
    (Sync ⟨100, ⟨"a", "t", "", "secret", "team/"⟩, ⟨"b", "t", "", "secret", "team/"⟩⟩
        ⟨some (some []), fun _ => false, fun _ => false, fun _ => false⟩
        ⟨fun _ => none, fun _ => none⟩ 1).outcomes = [] := by
  exact ⟨rfl, rfl⟩

/-- Claim C1 witness. -/
theorem Sync_empty_listing_witness :
    (Sync ⟨100, ⟨"a", "t", "", "secret", "team/"⟩, ⟨"b", "t", "", "secret", "team/"⟩⟩
        ⟨some none, fun _ => false, fun _ => false, fun _ => false⟩
        ⟨fun _ => none, fun _ => none⟩ 1).result =
      .failed ("failed to list source path: " ++
        "failed to list source path: vault returned an empty list") ∧
    (Sync ⟨100, ⟨"a", "t", "", "secret", "team/"⟩, ⟨"b", "t", "", "secret", "team/"⟩⟩
        ⟨some none, fun _ => false, fun _ => false, fun _ => false⟩
        ⟨fun _ => none, fun _ => none⟩ 1).batches = [] :=
  ⟨((Sync_empty_listing _ _ _ 1).1 rfl).1, ((Sync_empty_listing _ _ _ 1).1 rfl).2.1⟩

/-- Claim C3 (code bug): `Sync` performs NO validation of the batch size.
With `BatchSize = 0` and a non-empty key list the dispatch loop advances its
index by zero forever, dispatching empty slices, and never returns (for any
amount of fuel); with `BatchSize = -1` the first slice `srcList[0:-1]` has
inverted bounds, a runtime panic.  In neither case is an `InvalidBatchSize`
configuration error produced before sync work, contradicting the claim. -/
theorem Sync_batchSize_zero_loops :
    (∀ fuel : Nat,
      (Sync ⟨0, ⟨"a", "t", "", "secret", "team/"⟩, ⟨"b", "t", "", "secret", "team/"⟩⟩
          ⟨some (some ["k"]), fun _ => false, fun _ => false, fun _ => false⟩
          ⟨fun _ => none, fun _ => none⟩ fuel).result = .noReturn) ∧
    (Sync ⟨-1, ⟨"a", "t", "", "secret", "team/"⟩, ⟨"b", "t", "", "secret", "team/"⟩⟩
        ⟨some (some ["k"]), fun _ => false, fun _ => false, fun _ => false⟩
        ⟨fun _ => none, fun _ => none⟩ 1).result = .noReturn := by
  constructor
  · intro fuel
    induction fuel with
    | zero => rfl
    | succ f ih =>
      show (syncLoop _ "secret" "team/" ["k"] 0 (f + 1) 0 _).result = .noReturn
      rw [syncLoop]
      norm_num
      exact ih
  · rfl

/-- The batching loop returns normally (with Go's `nil`) whenever the batch
size is positive and the fuel exceeds the number of loop iterations left. -/
theorem syncLoop_done (env : Env) (m p : String) (keys : List String) (bs : Int)
    (hbs : 0 < bs) :
    ∀ (fuel n : Nat) (w : World), keys.length - n < fuel →
      (syncLoop env m p keys bs fuel (n : Int) w).result = .done := by
  intro fuel
  induction fuel with
  | zero => intro n w h; omega
  | succ f ih =>
    intro n w h
    rw [syncLoop]
    by_cases hlt : (n : Int) < (keys.length : Int)
    · rw [if_pos hlt]
      have hb : (0 : Int) ≤ (n : Int) ∧
          (n : Int) ≤ (if (n : Int) + bs > (keys.length : Int) then (keys.length : Int)
            else (n : Int) + bs) := by
        refine ⟨by exact_mod_cast Nat.zero_le n, ?_⟩
        split <;> omega
      rw [if_pos hb]
      show (syncLoop env m p keys bs f ((n : Int) + bs) _).result = .done
      have hc : ((n : Int) + bs) = ((n + bs.toNat : Nat) : Int) := by
        push_cast
        omega
      rw [hc]
      exact ih (n + bs.toNat) _ (by omega)
    · rw [if_neg hlt]

/-- Claim C4: whenever enumeration succeeds (and the run can terminate at
all, i.e. the batch size is positive and enough fuel is supplied), `Sync`
returns overall success — for EVERY pattern of per-key read/write failures,
since the failure oracles of `env` are universally quantified.  Per-key
failures only appear in the recorded outcomes, never in the return value. -/
theorem Sync_success_despite_per_key_failures
    (cfg : Config) (env : Env) (w : World) (keys : List String) (fuel : Nat)
    (hlist : env.listKeys = some (some keys)) (hbs : 0 < cfg.batchSize)
    (hfuel : keys.length < fuel) :
    (Sync cfg env w fuel).result = .done := by
  simp only [Sync, listSourcePath, hlist]
  have := syncLoop_done env cfg.sourceVault.mount cfg.sourceVault.path keys
    cfg.batchSize hbs fuel 0 w (by omega)
  simpa using this

/-- Claim C4 witness: a run whose only key fails at the destination write —
the recorded outcome is `WriteFailed`, yet the run returns success. -/
theorem Sync_success_despite_per_key_failures_witness :
    (Sync ⟨100, ⟨"a", "t", "", "secret", "team/"⟩, ⟨"b", "t", "", "secret", "team/"⟩⟩
        ⟨some (some ["k"]), fun _ => false, fun _ => true, fun _ => false⟩
        ⟨fun p => if p = "secret/data/team/k" then some .null else none, fun _ => none⟩
        2).result = .done ∧
    (Sync ⟨100, ⟨"a", "t", "", "secret", "team/"⟩, ⟨"b", "t", "", "secret", "team/"⟩⟩
        ⟨some (some ["k"]), fun _ => false, fun _ => true, fun _ => false⟩
        ⟨fun p => if p = "secret/data/team/k" then some .null else none, fun _ => none⟩
        2).outcomes = [("team/k", .writeFailed)] :=
  ⟨Sync_success_despite_per_key_failures _ _ _ ["k"] 2 rfl (by norm_num) (by norm_num),
    rfl⟩

/-! ### Per-key worker behaviour (claim C5) -/

/-- Claim C5: for a key whose destination write call fails (the source read
having succeeded), the worker performs no verification read of the
destination — indeed no destination read at all — and the recorded outcome
is exactly `WriteFailed`. -/
theorem doSync_write_failed_no_verify
    (env : Env) (w : World) (m p : String) (doc : JValue)
    (hread : env.srcReadFails (m ++ "/data/" ++ p) = false)
    (hsrc : w.src (m ++ "/data/" ++ p) = some doc)
    (hwrite : env.dstWriteFails (m ++ "/data/" ++ p) = true) :
    (doSync env w m p).outcome = .writeFailed ∧
    (∀ q : String, Op.read .destination q ∉ (doSync env w m p).ops) ∧
    (doSync env w m p).world = w := by
  simp only [doSync, hread, hsrc, hwrite, Bool.false_eq_true, if_false]
  simp

/-- Claim C5 witness. -/
theorem doSync_write_failed_no_verify_witness :
    (doSync ⟨some (some ["k"]), fun _ => false, fun _ => true, fun _ => false⟩
        ⟨fun q => if q = "secret/data/team/k" then some .null else none, fun _ => none⟩
        "secret" "team/k").outcome = .writeFailed ∧
    Op.read .destination "secret/data/team/k" ∉
      (doSync ⟨some (some ["k"]), fun _ => false, fun _ => true, fun _ => false⟩
        ⟨fun q => if q = "secret/data/team/k" then some .null else none, fun _ => none⟩
        "secret" "team/k").ops := by
  have h := doSync_write_failed_no_verify
    ⟨some (some ["k"]), fun _ => false, fun _ => true, fun _ => false⟩
    ⟨fun q => if q = "secret/data/team/k" then some .null else none, fun _ => none⟩
    "secret" "team/k" .null rfl rfl rfl
  exact ⟨h.1, h.2.1 "secret/data/team/k"⟩

/-! ### The source store is never written (claim C10) -/

theorem doSync_frame (env : Env) (w : World) (m p : String) :
    (doSync env w m p).world.src = w.src ∧
    (doSync env w m p).ops.countP (isWriteTo .source) = 0 := by
  simp only [doSync]
  split
  · simp [isWriteTo]
  · split
    · simp [isWriteTo]
    · split
      · simp [isWriteTo]
      · split
        · simp [isWriteTo]
        · split <;> simp [isWriteTo]

theorem batchSync_frame (env : Env) (m p : String) :
    ∀ (batch : List String) (w : World),
      (batchSync env w m p batch).world.src = w.src ∧
      (batchSync env w m p batch).ops.countP (isWriteTo .source) = 0 := by
  intro batch
  induction batch with
  | nil => intro w; exact ⟨rfl, rfl⟩
  | cons item rest ih =>
    intro w
    have hd := doSync_frame env w m (p ++ item)
    have ht := ih (doSync env w m (p ++ item)).world
    refine ⟨?_, ?_⟩
    · show (batchSync env (doSync env w m (p ++ item)).world m p rest).world.src = w.src
      rw [ht.1, hd.1]
    · show ((doSync env w m (p ++ item)).ops ++
        (batchSync env (doSync env w m (p ++ item)).world m p rest).ops).countP
          (isWriteTo .source) = 0
      rw [List.countP_append, hd.2, ht.2]

theorem syncLoop_frame (env : Env) (m p : String) (keys : List String) (bs : Int) :
    ∀ (fuel : Nat) (i : Int) (w : World),
      (syncLoop env m p keys bs fuel i w).world.src = w.src ∧
      (syncLoop env m p keys bs fuel i w).ops.countP (isWriteTo .source) = 0 := by
  intro fuel
  induction fuel with
  | zero => intro i w; exact ⟨rfl, rfl⟩
  | succ f ih =>
    intro i w
    rw [syncLoop]
    by_cases hlt : i < (keys.length : Int)
    · rw [if_pos hlt]
      by_cases hb : (0 : Int) ≤ i ∧
          i ≤ (if i + bs > (keys.length : Int) then (keys.length : Int) else i + bs)
      · rw [if_pos hb]
        have hbt := batchSync_frame env m p
          ((keys.drop i.toNat).take
            ((if i + bs > (keys.length : Int) then (keys.length : Int) else i + bs) - i).toNat) w
        have hr := ih (i + bs)
          (batchSync env w m p
            ((keys.drop i.toNat).take
              ((if i + bs > (keys.length : Int) then (keys.length : Int) else i + bs) - i).toNat)).world
        refine ⟨?_, ?_⟩
        · show (syncLoop env m p keys bs f (i + bs) _).world.src = w.src
          rw [hr.1, hbt.1]
        · show (_ ++ (syncLoop env m p keys bs f (i + bs) _).ops).countP
            (isWriteTo .source) = 0
          rw [List.countP_append, hbt.2, hr.2]
      · rw [if_neg hb]
        exact ⟨rfl, rfl⟩
    · rw [if_neg hlt]
      exact ⟨rfl, rfl⟩

/-- Claim C10: a whole `Sync` run never writes to the source store — every
write call it issues targets the destination client (the count of
source-directed writes among all performed operations is zero), and the
source store's contents after the run are exactly its contents before,
whatever the environment, configuration, fuel and initial stores. -/
theorem Sync_never_writes_source (cfg : Config) (env : Env) (w : World) (fuel : Nat) :
    (Sync cfg env w fuel).world.src = w.src ∧
    (Sync cfg env w fuel).ops.countP (isWriteTo .source) = 0 := by
  unfold Sync listSourcePath
  cases h : env.listKeys with
  | none => simp [isWriteTo]
  | some o =>
    cases o with
    | none => simp [isWriteTo]
    | some keys =>
      have hl := syncLoop_frame env cfg.sourceVault.mount cfg.sourceVault.path keys
        cfg.batchSize fuel 0 w
      refine ⟨hl.1, ?_⟩
      show (Op.list .source _ :: (syncLoop _ _ _ _ _ _ _ _).ops).countP (isWriteTo .source) = 0
      rw [List.countP_cons]
      simp [isWriteTo, hl.2]

/-! ### The batch plan (claim C2) -/

theorem chunks_flatten (bs : Nat) (hbs : 0 < bs) :
    ∀ ks : List String, (chunks ks bs).flatten = ks
  | [] => by simp [chunks]
  | k :: ks => by
    rw [chunks]
    simp only [List.flatten_cons]
    rw [chunks_flatten bs hbs (ks.drop (bs - 1))]
    obtain ⟨m, rfl⟩ : ∃ m, bs = m + 1 := ⟨bs - 1, by omega⟩
    simp only [Nat.add_sub_cancel, List.take_succ_cons, List.cons_append,
      List.take_append_drop]
termination_by ks => ks.length
decreasing_by simp only [List.length_drop, List.length_cons]; omega

theorem chunks_eq_nil (bs : Nat) (ks : List String) : chunks ks bs = [] ↔ ks = [] := by
  cases ks with
  | nil => simp [chunks]
  | cons k ks => simp [chunks]

theorem chunks_mem (bs : Nat) (hbs : 0 < bs) :
    ∀ ks : List String, ∀ b ∈ chunks ks bs, b.length ≤ bs ∧ b ≠ []
  | [] => by simp [chunks]
  | k :: ks => by
    intro b hb
    rw [chunks] at hb
    rcases List.mem_cons.mp hb with h | h
    · subst h
      refine ⟨List.length_take_le bs (k :: ks), ?_⟩
      obtain ⟨m, rfl⟩ : ∃ m, bs = m + 1 := ⟨bs - 1, by omega⟩
      simp [List.take_succ_cons]
    · exact chunks_mem bs hbs (ks.drop (bs - 1)) b h
termination_by ks => ks.length
decreasing_by simp only [List.length_drop, List.length_cons]; omega

theorem chunks_dropLast (bs : Nat) (hbs : 0 < bs) :
    ∀ ks : List String, ∀ b ∈ (chunks ks bs).dropLast, b.length = bs
  | [] => by simp [chunks]
  | k :: ks => by
    intro b hb
    rw [chunks] at hb
    rcases hrest : chunks (ks.drop (bs - 1)) bs with _ | ⟨c, cs⟩
    · rw [hrest] at hb
      simp at hb
    · rw [hrest, List.dropLast_cons₂] at hb
      rcases List.mem_cons.mp hb with h | h
      · subst h
        have hne : ks.drop (bs - 1) ≠ [] := by
          intro hx
          rw [hx, chunks] at hrest
          exact List.cons_ne_nil c cs hrest.symm
        have hlt : bs - 1 < ks.length := by
          by_contra hge
          exact hne (List.drop_eq_nil_of_le (by omega))
        simp only [List.length_take, List.length_cons]
        omega
      · have hrec := chunks_dropLast bs hbs (ks.drop (bs - 1))
        rw [hrest] at hrec
        exact hrec b h
termination_by ks => ks.length
decreasing_by simp only [List.length_drop, List.length_cons]; omega

/-- The batches produced by the `Sync` loop (for positive batch size and
enough fuel) are exactly the closed-form chunks of the not-yet-processed
suffix of the key list. -/
theorem syncLoop_batches (env : Env) (m p : String) (keys : List String) (bs : Int)
    (hbs : 0 < bs) :
    ∀ (fuel n : Nat) (w : World), keys.length - n < fuel →
      (syncLoop env m p keys bs fuel (n : Int) w).batches =
        chunks (keys.drop n) bs.toNat := by
  intro fuel
  induction fuel with
  | zero => intro n w h; omega
  | succ f ih =>
    intro n w h
    rw [syncLoop]
    by_cases hlt : (n : Int) < (keys.length : Int)
    · rw [if_pos hlt]
      have hb : (0 : Int) ≤ (n : Int) ∧
          (n : Int) ≤ (if (n : Int) + bs > (keys.length : Int) then (keys.length : Int)
            else (n : Int) + bs) := by
        refine ⟨by exact_mod_cast Nat.zero_le n, ?_⟩
        split <;> omega
      rw [if_pos hb]
      have hnlt : n < keys.length := by exact_mod_cast hlt
      -- the slice srcList[n:end] is the first chunk of the remaining suffix
      have hbatch : (keys.drop (n : Int).toNat).take
          (((if (n : Int) + bs > (keys.length : Int) then (keys.length : Int)
            else (n : Int) + bs)) - (n : Int)).toNat =
          (keys.drop n).take bs.toNat := by
        have hlen : (keys.drop n).length = keys.length - n := List.length_drop n keys
        by_cases hcap : (n : Int) + bs > (keys.length : Int)
        · rw [if_pos hcap]
          have : ((keys.length : Int) - (n : Int)).toNat = keys.length - n := by omega
          rw [Int.toNat_natCast, this]
          rw [← hlen, List.take_length]
          exact (List.take_of_length_le (by omega)).symm
        · rw [if_neg hcap]
          have : ((n : Int) + bs - (n : Int)).toNat = bs.toNat := by omega
          rw [Int.toNat_natCast, this]
      rw [hbatch]
      have hcast : ((n : Int) + bs) = ((n + bs.toNat : Nat) : Int) := by
        push_cast
        omega
      show ((keys.drop n).take bs.toNat) ::
          (syncLoop env m p keys bs f ((n : Int) + bs) _).batches =
        chunks (keys.drop n) bs.toNat
      rw [hcast, ih (n + bs.toNat) _ (by omega)]
      -- unfold one step of chunks on the nonempty suffix
      rcases hsuf : keys.drop n with _ | ⟨k, ks⟩
      · have : keys.length - n = 0 := by
          have := List.length_drop n keys
          rw [hsuf] at this
          simpa using this.symm
        omega
      · rw [chunks]
        have hdd : ks.drop (bs.toNat - 1) = keys.drop (n + bs.toNat) := by
          have h1 : (k :: ks).drop bs.toNat = ks.drop (bs.toNat - 1) := by
            rcases hbt : bs.toNat with _ | m'
            · omega
            · simp
          rw [← h1, ← hsuf, List.drop_drop, Nat.add_comm]
        rw [hdd]
    · rw [if_neg hlt]
      have hge : keys.length ≤ n := by exact_mod_cast not_lt.mp hlt
      rw [List.drop_eq_nil_of_le hge, chunks]

/-- Claim C2: for every non-empty enumerated key list and positive batch
size (with enough fuel for the loop to return), the batches dispatched by
`Sync` are contiguous order-preserving slices: their in-order concatenation
is exactly the enumerated list (no duplication, no omission), every batch
except possibly the last has exactly `batchSize` elements, and the last has
between 1 and `batchSize` elements. -/
theorem Sync_batches_partition
    (cfg : Config) (env : Env) (w : World) (keys : List String) (fuel : Nat)
    (hlist : env.listKeys = some (some keys)) (hne : keys ≠ [])
    (hbs : 0 < cfg.batchSize) (hfuel : keys.length < fuel) :
    (Sync cfg env w fuel).batches.flatten = keys ∧
    (Sync cfg env w fuel).batches ≠ [] ∧
    (∀ b ∈ (Sync cfg env w fuel).batches.dropLast, b.length = cfg.batchSize.toNat) ∧
    (∀ hB : (Sync cfg env w fuel).batches ≠ [],
      1 ≤ ((Sync cfg env w fuel).batches.getLast hB).length ∧
      ((Sync cfg env w fuel).batches.getLast hB).length ≤ cfg.batchSize.toNat) := by
  have hbs' : 0 < cfg.batchSize.toNat := by omega
  have hbatches : (Sync cfg env w fuel).batches = chunks keys cfg.batchSize.toNat := by
    simp only [Sync, listSourcePath, hlist]
    have := syncLoop_batches env cfg.sourceVault.mount cfg.sourceVault.path keys
      cfg.batchSize hbs fuel 0 w (by omega)
    simpa using this
  rw [hbatches]
  refine ⟨chunks_flatten _ hbs' keys, ?_, chunks_dropLast _ hbs' keys, ?_⟩
  · exact fun hx => hne ((chunks_eq_nil _ _).mp hx)
  · intro hB
    have hmem := chunks_mem _ hbs' keys _ (List.getLast_mem hB)
    refine ⟨?_, hmem.1⟩
    rcases hlast : (chunks keys cfg.batchSize.toNat).getLast hB with _ | _
    · exact absurd hlast hmem.2
    · simp

/-- Claim C2 witness: keys `["a","b","c"]` with batch size 2. -/
theorem Sync_batches_partition_witness :
    (Sync ⟨2, ⟨"a", "t", "", "secret", "team/"⟩, ⟨"b", "t", "", "secret", "team/"⟩⟩
        ⟨some (some ["a", "b", "c"]), fun _ => false, fun _ => false, fun _ => false⟩
        ⟨fun _ => none, fun _ => none⟩ 4).batches.flatten = ["a", "b", "c"] ∧
    (Sync ⟨2, ⟨"a", "t", "", "secret", "team/"⟩, ⟨"b", "t", "", "secret", "team/"⟩⟩
        ⟨some (some ["a", "b", "c"]), fun _ => false, fun _ => false, fun _ => false⟩
        ⟨fun _ => none, fun _ => none⟩ 4).batches ≠ [] := by
  have h := Sync_batches_partition
    ⟨2, ⟨"a", "t", "", "secret", "team/"⟩, ⟨"b", "t", "", "secret", "team/"⟩⟩
    ⟨some (some ["a", "b", "c"]), fun _ => false, fun _ => false, fun _ => false⟩
    ⟨fun _ => none, fun _ => none⟩ ["a", "b", "c"] 4
    rfl (by simp) (by norm_num) (by norm_num)
  exact ⟨h.1, h.2.1⟩

/-! ### Batch sequencing under concurrency (claim C6) -/

theorem schedInv_init (keys : List String) (bs : Nat) (hbs : 0 < bs) :
    SchedInv bs (initSched keys bs) := by
  refine ⟨by simp [initSched], by simp [initSched], by simp [initSched], ?_, by simp [initSched]⟩
  intro b hb
  exact (chunks_mem bs hbs keys b hb).1

theorem schedInv_step (opsOf : String → List Op) (bs : Nat) {s s' : Sched}
    (hstep : SchedStep opsOf s s') (hinv : SchedInv bs s) : SchedInv bs s' := by
  obtain ⟨h1, h2, h3, h4, h5⟩ := hinv
  cases hstep with
  | dispatch hdone hp =>
    refine ⟨?_, ?_, h3, ?_, ?_⟩
    · intro w hw
      simp only [spawn, List.mem_map] at hw
      obtain ⟨k, _, rfl⟩ := hw
      rfl
    · intro e he
      exact Nat.lt_succ_of_lt (h2 e he)
    · intro b' hb'
      exact h4 b' (hp ▸ List.mem_cons_of_mem _ hb')
    · simpa [spawn] using h4 _ (hp ▸ List.mem_cons_self _ _)
  | work i hi hop =>
    have hmem := List.get_mem s.inflight i hi
    refine ⟨?_, ?_, ?_, h4, ?_⟩
    · intro w hw
      rcases List.mem_or_eq_of_mem_set hw with h | h
      · exact h1 w h
      · subst h
        exact h1 (s.inflight.get ⟨i, hi⟩) hmem
    · intro e he
      rcases List.mem_append.mp he with h | h
      · exact h2 e h
      · have hidx := h1 _ hmem
        simp only [List.mem_singleton] at h
        subst h
        dsimp only
        omega
    · rw [List.pairwise_append]
      refine ⟨h3, by simp, ?_⟩
      intro a ha b hb
      simp only [List.mem_singleton] at hb
      subst hb
      have ha' := h2 a ha
      have hidx := h1 _ hmem
      simp only
      omega
    · simpa [List.length_set] using h5

theorem reaches_schedInv (opsOf : String → List Op) (keys : List String) (bs : Nat)
    (hbs : 0 < bs) {s : Sched} (hreach : Reaches opsOf (initSched keys bs) s) :
    SchedInv bs s := by
  induction hreach with
  | refl => exact schedInv_init keys bs hbs
  | tail _ hs ih => exact schedInv_step opsOf bs hs ih

/-- Claim C6: under the goroutine/`WaitGroup` scheduler of `batchSync` and
`Sync` — a new batch can be dispatched only once every worker of the current
batch has finished — every reachable state satisfies: the trace of store
calls is monotone in batch index (so each call of batch N happens before
every call of batch N+1: a call with a strictly larger batch index can only
occur strictly later in the trace); all in-flight workers belong to one and
the same batch; and at most one batch's worth of workers (at most `bs`) is
in flight. -/
theorem Sync_batches_sequential (opsOf : String → List Op) (keys : List String)
    (bs : Nat) (s : Sched) (hbs : 0 < bs)
    (hreach : Reaches opsOf (initSched keys bs) s) :
    List.Pairwise (fun e1 e2 : Nat × String × Op => e1.1 ≤ e2.1) s.trace ∧
    (∀ (i j : Nat) (hi : i < s.trace.length) (hj : j < s.trace.length),
      (s.trace.get ⟨i, hi⟩).1 < (s.trace.get ⟨j, hj⟩).1 → i < j) ∧
    (∀ w1 ∈ s.inflight, ∀ w2 ∈ s.inflight, w1.batchIdx = w2.batchIdx) ∧
    s.inflight.length ≤ bs := by
  obtain ⟨h1, _, h3, _, h5⟩ := reaches_schedInv opsOf keys bs hbs hreach
  refine ⟨h3, ?_, ?_, h5⟩
  · intro i j hi hj hlt
    by_contra hge
    rcases Nat.lt_or_ge j i with hji | hij
    · exact absurd (List.pairwise_iff_get.mp h3 ⟨j, hj⟩ ⟨i, hi⟩ hji) (by omega)
    · have : i = j := by omega
      subst this
      omega
  · intro w1 hw1 w2 hw2
    have := h1 w1 hw1
    have := h1 w2 hw2
    omega

/-- Claim C6 witness: after dispatching the single batch of key list
`["a"]` with batch size 1, the reached state satisfies the sequencing
guarantees. -/
theorem Sync_batches_sequential_witness :
    List.Pairwise (fun e1 e2 : Nat × String × Op => e1.1 ≤ e2.1)
      (Sched.trace ⟨1, [], [⟨0, "a", []⟩], []⟩) ∧
    (Sched.inflight ⟨1, [], [⟨0, "a", []⟩], []⟩).length ≤ 1 := by
  have hstep : SchedStep (fun _ => []) (initSched ["a"] 1) ⟨1, [], [⟨0, "a", []⟩], []⟩ := by
    have hd : ∀ w ∈ (initSched ["a"] 1).inflight, w.remaining = [] := by
      simp [initSched]
    have hp : (initSched ["a"] 1).pending = ["a"] :: [] := by
      simp [initSched, chunks]
    exact SchedStep.dispatch hd hp
  have h := Sync_batches_sequential (fun _ => []) ["a"] 1 ⟨1, [], [⟨0, "a", []⟩], []⟩
    (by norm_num) (Reaches.tail Reaches.refl hstep)
  exact ⟨h.1, h.2.2.2⟩

/-! ### Canonical serialization and digest comparison (claim C7) -/

/-- Member-wise induction principle for the nested inductive `JValue`. -/
theorem JValue.recMem (P : JValue → Prop) (hnull : P .null) (hbool : ∀ b, P (.bool b))
    (hnum : ∀ n, P (.num n)) (hstr : ∀ s, P (.str s))
    (harr : ∀ xs, (∀ x ∈ xs, P x) → P (.arr xs))
    (hobj : ∀ fs, (∀ kv ∈ fs, P kv.2) → P (.obj fs)) :
    ∀ v : JValue, P v
  | .null => hnull
  | .bool b => hbool b
  | .num n => hnum n
  | .str s => hstr s
  | .arr xs => harr xs (fun x hx => JValue.recMem P hnull hbool hnum hstr harr hobj x)
  | .obj fs => hobj fs (fun kv hkv => JValue.recMem P hnull hbool hnum hstr harr hobj kv.2)
termination_by v => sizeOf v
decreasing_by
  · have := List.sizeOf_lt_of_mem hx
    simp only [JValue.arr.sizeOf_spec]
    omega
  · have h1 := List.sizeOf_lt_of_mem hkv
    have h2 : sizeOf kv.2 < sizeOf kv := by
      obtain ⟨a, b⟩ := kv
      simp only [Prod.mk.sizeOf_spec]
      omega
    simp only [JValue.obj.sizeOf_spec]
    omega

theorem canon_null : canon .null = .null := by simp [canon]

theorem canon_bool (b : Bool) : canon (.bool b) = .bool b := by simp [canon]

theorem canon_num (n : Int) : canon (.num n) = .num n := by simp [canon]

theorem canon_str (s : String) : canon (.str s) = .str s := by simp [canon]

theorem canon_arr (xs : List JValue) : canon (.arr xs) = .arr (xs.map canon) := by
  rw [canon]
  simp [List.attach_map_coe]

theorem canon_obj (fs : List (String × JValue)) :
    canon (.obj fs) = .obj (sortByKey (fs.map (fun kv => (kv.1, canon kv.2)))) := by
  rw [canon]
  rw [List.attach_map_coe fs (fun kv => (kv.1, canon kv.2))]

theorem serRaw_null : serRaw .null = [.jnull] := by simp [serRaw]

theorem serRaw_bool (b : Bool) : serRaw (.bool b) = [.jbool b] := by simp [serRaw]

theorem serRaw_num (n : Int) : serRaw (.num n) = [.jnum n] := by simp [serRaw]

theorem serRaw_str (s : String) : serRaw (.str s) = [.jstr s] := by simp [serRaw]

theorem serRaw_arr (xs : List JValue) :
    serRaw (.arr xs) = .lbrack :: (joinComma (xs.map serRaw) ++ [.rbrack]) := by
  rw [serRaw]
  simp [List.attach_map_coe]

theorem serRaw_obj (fs : List (String × JValue)) :
    serRaw (.obj fs) = .lbrace :: (joinComma (fs.map serEntry) ++ [.rbrace]) := by
  rw [serRaw]
  rw [List.attach_map_coe fs (fun kv => Tok.jstr kv.1 :: Tok.colon :: serRaw kv.2)]
  rfl

theorem joinComma_cons_append (a : List Tok) (rest : List (List Tok)) (z : List Tok) :
    joinComma (a :: rest) ++ z = a ++ tailSeq rest z := by
  cases rest with
  | nil => simp [joinComma, tailSeq]
  | cons b bs => simp [joinComma, tailSeq]

theorem serRaw_head (v : JValue) : ∃ ts, serRaw v = headTok v :: ts := by
  cases v with
  | null => exact ⟨[], serRaw_null⟩
  | bool b => exact ⟨[], serRaw_bool b⟩
  | num n => exact ⟨[], serRaw_num n⟩
  | str s => exact ⟨[], serRaw_str s⟩
  | arr xs => exact ⟨_, serRaw_arr xs⟩
  | obj fs => exact ⟨_, serRaw_obj fs⟩

theorem headTok_not_closer (v : JValue) :
    headTok v ≠ .comma ∧ headTok v ≠ .rbrack ∧ headTok v ≠ .rbrace ∧ headTok v ≠ .colon := by
  cases v <;> simp [headTok]

theorem serRaw_head_inj {v1 v2 : JValue} {r1 r2 : List Tok}
    (heq : serRaw v1 ++ r1 = serRaw v2 ++ r2) : headTok v1 = headTok v2 := by
  obtain ⟨t1, h1⟩ := serRaw_head v1
  obtain ⟨t2, h2⟩ := serRaw_head v2
  rw [h1, h2, List.cons_append, List.cons_append] at heq
  have h3 := congrArg List.head? heq
  simpa using h3

/-- Unique readability of comma-separated array items terminated by `]`. -/
theorem arrItems_unique :
    ∀ (xs1 : List JValue),
      (∀ x ∈ xs1, ∀ (v2 : JValue) (s1 s2 : List Tok),
        serRaw x ++ s1 = serRaw v2 ++ s2 → x = v2 ∧ s1 = s2) →
      ∀ (xs2 : List JValue) (r1 r2 : List Tok),
        joinComma (xs1.map serRaw) ++ .rbrack :: r1 =
          joinComma (xs2.map serRaw) ++ .rbrack :: r2 →
        xs1 = xs2 ∧ r1 = r2 := by
  intro xs1
  induction xs1 with
  | nil =>
    intro _ xs2 r1 r2 heq
    cases xs2 with
    | nil =>
      simp only [List.map_nil, joinComma, List.nil_append, List.cons.injEq] at heq
      exact ⟨rfl, heq.2⟩
    | cons y ys =>
      exfalso
      simp only [List.map_nil, List.map_cons, joinComma, List.nil_append] at heq
      rw [joinComma_cons_append] at heq
      obtain ⟨ts, hts⟩ := serRaw_head y
      rw [hts, List.cons_append, List.cons.injEq] at heq
      exact (headTok_not_closer y).2.1 heq.1.symm
  | cons x xs ih =>
    intro helem xs2 r1 r2 heq
    rw [List.map_cons, joinComma_cons_append] at heq
    cases xs2 with
    | nil =>
      exfalso
      simp only [List.map_nil, joinComma, List.nil_append] at heq
      obtain ⟨ts, hts⟩ := serRaw_head x
      rw [hts, List.cons_append, List.cons.injEq] at heq
      exact (headTok_not_closer x).2.1 heq.1
    | cons y ys =>
      rw [List.map_cons, joinComma_cons_append] at heq
      obtain ⟨hxy, htail⟩ := helem x (List.mem_cons_self x xs) y _ _ heq
      subst hxy
      cases xs with
      | nil =>
        cases ys with
        | nil =>
          simp only [List.map_nil, tailSeq, List.cons.injEq] at htail
          exact ⟨rfl, htail.2⟩
        | cons z zs =>
          exfalso
          simp only [List.map_nil, List.map_cons, tailSeq, List.cons.injEq] at htail
          exact Tok.noConfusion htail.1
      | cons w ws =>
        cases ys with
        | nil =>
          exfalso
          simp only [List.map_nil, List.map_cons, tailSeq, List.cons.injEq] at htail
          exact Tok.noConfusion htail.1
        | cons z zs =>
          simp only [List.map_cons, tailSeq, List.cons.injEq] at htail
          obtain ⟨-, htail2⟩ := htail
          have hrec := ih (fun a ha => helem a (List.mem_cons_of_mem x ha)) (z :: zs) r1 r2
            (by rw [List.map_cons, List.map_cons]; exact htail2)
          exact ⟨by rw [hrec.1], hrec.2⟩

/-- Unique readability of comma-separated object entries terminated by
a closing brace. -/
theorem objEntries_unique :
    ∀ (fs1 : List (String × JValue)),
      (∀ kv ∈ fs1, ∀ (v2 : JValue) (s1 s2 : List Tok),
        serRaw kv.2 ++ s1 = serRaw v2 ++ s2 → kv.2 = v2 ∧ s1 = s2) →
      ∀ (fs2 : List (String × JValue)) (r1 r2 : List Tok),
        joinComma (fs1.map serEntry) ++ .rbrace :: r1 =
          joinComma (fs2.map serEntry) ++ .rbrace :: r2 →
        fs1 = fs2 ∧ r1 = r2 := by
  intro fs1
  induction fs1 with
  | nil =>
    intro _ fs2 r1 r2 heq
    cases fs2 with
    | nil =>
      simp only [List.map_nil, joinComma, List.nil_append, List.cons.injEq] at heq
      exact ⟨rfl, heq.2⟩
    | cons b bs =>
      exfalso
      simp only [List.map_nil, List.map_cons, joinComma, List.nil_append] at heq
      rw [joinComma_cons_append] at heq
      simp only [serEntry, List.cons_append, List.cons.injEq] at heq
      exact Tok.noConfusion heq.1
  | cons a as ih =>
    intro helem fs2 r1 r2 heq
    rw [List.map_cons, joinComma_cons_append] at heq
    cases fs2 with
    | nil =>
      exfalso
      simp only [List.map_nil, joinComma, List.nil_append] at heq
      simp only [serEntry, List.cons_append, List.cons.injEq] at heq
      exact Tok.noConfusion heq.1
    | cons b bs =>
      rw [List.map_cons, joinComma_cons_append] at heq
      simp only [serEntry, List.cons_append, List.cons.injEq, Tok.jstr.injEq] at heq
      obtain ⟨hk, -, hval⟩ := heq
      obtain ⟨hv, htail⟩ := helem a (List.mem_cons_self a as) b.2 _ _ hval
      have hab : a = b := Prod.ext hk hv
      subst hab
      cases as with
      | nil =>
        cases bs with
        | nil =>
          simp only [List.map_nil, tailSeq, List.cons.injEq] at htail
          exact ⟨rfl, htail.2⟩
        | cons c cs =>
          exfalso
          simp only [List.map_nil, List.map_cons, tailSeq, List.cons.injEq] at htail
          exact Tok.noConfusion htail.1
      | cons c cs =>
        cases bs with
        | nil =>
          exfalso
          simp only [List.map_nil, List.map_cons, tailSeq, List.cons.injEq] at htail
          exact Tok.noConfusion htail.1
        | cons d ds =>
          simp only [List.map_cons, tailSeq, List.cons.injEq] at htail
          obtain ⟨-, htail2⟩ := htail
          have hrec := ih (fun kv hkv => helem kv (List.mem_cons_of_mem a hkv)) (d :: ds) r1 r2
            (by rw [List.map_cons, List.map_cons]; exact htail2)
          exact ⟨by rw [hrec.1], hrec.2⟩

/-- Unique readability of the serializer: a serialized value followed by
arbitrary residue determines both. -/
theorem serRaw_unique :
    ∀ (v1 v2 : JValue) (r1 r2 : List Tok),
      serRaw v1 ++ r1 = serRaw v2 ++ r2 → v1 = v2 ∧ r1 = r2 := by
  intro v1
  induction v1 using Vaultsync.JValue.recMem with
  | hnull =>
    intro v2 r1 r2 heq
    have hh := serRaw_head_inj heq
    cases v2 with
    | null => exact ⟨rfl, List.append_cancel_left heq⟩
    | bool b => exact absurd hh (by simp [headTok])
    | num n => exact absurd hh (by simp [headTok])
    | str s => exact absurd hh (by simp [headTok])
    | arr ys => exact absurd hh (by simp [headTok])
    | obj gs => exact absurd hh (by simp [headTok])
  | hbool b =>
    intro v2 r1 r2 heq
    have hh := serRaw_head_inj heq
    cases v2 with
    | bool b2 =>
      simp only [headTok, Tok.jbool.injEq] at hh
      subst hh
      exact ⟨rfl, List.append_cancel_left heq⟩
    | null => exact absurd hh (by simp [headTok])
    | num n => exact absurd hh (by simp [headTok])
    | str s => exact absurd hh (by simp [headTok])
    | arr ys => exact absurd hh (by simp [headTok])
    | obj gs => exact absurd hh (by simp [headTok])
  | hnum n =>
    intro v2 r1 r2 heq
    have hh := serRaw_head_inj heq
    cases v2 with
    | num n2 =>
      simp only [headTok, Tok.jnum.injEq] at hh
      subst hh
      exact ⟨rfl, List.append_cancel_left heq⟩
    | null => exact absurd hh (by simp [headTok])
    | bool b2 => exact absurd hh (by simp [headTok])
    | str s => exact absurd hh (by simp [headTok])
    | arr ys => exact absurd hh (by simp [headTok])
    | obj gs => exact absurd hh (by simp [headTok])
  | hstr s =>
    intro v2 r1 r2 heq
    have hh := serRaw_head_inj heq
    cases v2 with
    | str s2 =>
      simp only [headTok, Tok.jstr.injEq] at hh
      subst hh
      exact ⟨rfl, List.append_cancel_left heq⟩
    | null => exact absurd hh (by simp [headTok])
    | bool b2 => exact absurd hh (by simp [headTok])
    | num n2 => exact absurd hh (by simp [headTok])
    | arr ys => exact absurd hh (by simp [headTok])
    | obj gs => exact absurd hh (by simp [headTok])
  | harr xs ih =>
    intro v2 r1 r2 heq
    have hh := serRaw_head_inj heq
    cases v2 with
    | arr ys =>
      rw [serRaw_arr, serRaw_arr, List.cons_append, List.cons_append] at heq
      rw [List.cons.injEq] at heq
      rw [List.append_assoc, List.append_assoc, List.singleton_append,
        List.singleton_append] at heq
      obtain ⟨hxs, hr⟩ := arrItems_unique xs ih ys r1 r2 heq.2
      exact ⟨by rw [hxs], hr⟩
    | null => exact absurd hh (by simp [headTok])
    | bool b => exact absurd hh (by simp [headTok])
    | num n => exact absurd hh (by simp [headTok])
    | str s => exact absurd hh (by simp [headTok])
    | obj fs => exact absurd hh (by simp [headTok])
  | hobj fs ih =>
    intro v2 r1 r2 heq
    have hh := serRaw_head_inj heq
    cases v2 with
    | obj gs =>
      rw [serRaw_obj, serRaw_obj, List.cons_append, List.cons_append] at heq
      rw [List.cons.injEq] at heq
      rw [List.append_assoc, List.append_assoc, List.singleton_append,
        List.singleton_append] at heq
      obtain ⟨hfs, hr⟩ := objEntries_unique fs ih gs r1 r2 heq.2
      exact ⟨by rw [hfs], hr⟩
    | null => exact absurd hh (by simp [headTok])
    | bool b => exact absurd hh (by simp [headTok])
    | num n => exact absurd hh (by simp [headTok])
    | str s => exact absurd hh (by simp [headTok])
    | arr ys => exact absurd hh (by simp [headTok])

/-- The serializer is injective. -/
theorem serRaw_inj (v1 v2 : JValue) (h : serRaw v1 = serRaw v2) : v1 = v2 := by
  have h2 : serRaw v1 ++ [] = serRaw v2 ++ [] := by rw [h]
  exact (serRaw_unique v1 v2 [] [] h2).1

theorem sortByKey_sorted (fs : List (String × JValue)) :
    List.Sorted keyLe (sortByKey fs) :=
  List.sorted_insertionSort keyLe fs

theorem sortByKey_perm (fs : List (String × JValue)) : (sortByKey fs).Perm fs :=
  List.perm_insertionSort keyLe fs

/-- Two key-sorted association lists that are permutations of each other and
have duplicate-free keys are equal. -/
theorem sorted_keys_nodup_eq :
    ∀ (l1 l2 : List (String × JValue)), List.Sorted keyLe l1 → List.Sorted keyLe l2 →
      (l1.map Prod.fst).Nodup → l1.Perm l2 → l1 = l2
  | [], l2, _, _, _, hp => hp.nil_eq
  | a :: t1, l2, hs1, hs2, hnd, hp => by
    cases l2 with
    | nil =>
      have := hp.length_eq
      simp at this
    | cons b t2 =>
      have hmem_b : b ∈ a :: t1 := hp.symm.subset (List.mem_cons_self b t2)
      have hmem_a : a ∈ b :: t2 := hp.subset (List.mem_cons_self a t1)
      have hab : a.1 ≤ b.1 := by
        rcases List.mem_cons.mp hmem_b with h | h
        · rw [h]
        · exact (List.sorted_cons.mp hs1).1 b h
      have hba : b.1 ≤ a.1 := by
        rcases List.mem_cons.mp hmem_a with h | h
        · rw [h]
        · exact (List.sorted_cons.mp hs2).1 a h
      have hkey : a.1 = b.1 := le_antisymm hab hba
      have hb_eq : b = a := by
        rcases List.mem_cons.mp hmem_b with h | h
        · exact h
        · exfalso
          have : a.1 ∈ t1.map Prod.fst := by
            rw [hkey]
            exact List.mem_map_of_mem Prod.fst h
          simp only [List.map_cons, List.nodup_cons] at hnd
          exact hnd.1 this
      subst hb_eq
      have htl := sorted_keys_nodup_eq t1 t2 (List.sorted_cons.mp hs1).2
        (List.sorted_cons.mp hs2).2
        (by simp only [List.map_cons, List.nodup_cons] at hnd; exact hnd.2)
        hp.cons_inv
      rw [htl]

/-- Reordering object fields (at any nesting level) of a well-formed value
does not change its canonical form: `encoding/json`'s key sorting normalizes
the order away. -/
theorem reorder_canon : ∀ {v1 v2 : JValue}, Reorder v1 v2 → WFJ v1 →
    canon v1 = canon v2 := by
  intro v1 v2 hr
  induction hr with
  | null => intro _; rfl
  | bool b => intro _; rfl
  | num n => intro _; rfl
  | str s => intro _; rfl
  | arr hlen h ih =>
    intro hwf
    cases hwf with
    | arr hx =>
      rw [canon_arr, canon_arr]
      congr 1
      apply List.ext_get (by simp [hlen])
      intro i h1 h2
      simp only [List.length_map] at h1 h2
      rw [List.get_map, List.get_map]
      exact ih i h1 h2 (hx _ (List.get_mem _ i h1))
  | obj hlen hkeys hvals hperm ihvals =>
    intro hwf
    cases hwf with
    | obj hnd hv =>
      rw [canon_obj, canon_obj]
      congr 1
      rename_i fs mid gs
      have hmapeq : fs.map (fun kv => (kv.1, canon kv.2)) =
          mid.map (fun kv => (kv.1, canon kv.2)) := by
        apply List.ext_get (by simp [hlen])
        intro i h1 h2
        simp only [List.length_map] at h1 h2
        rw [List.get_map, List.get_map]
        exact Prod.ext (hkeys i h1 h2)
          (ihvals i h1 h2 (hv _ (List.get_mem _ i h1)))
      have hknd : ((sortByKey (fs.map (fun kv => (kv.1, canon kv.2)))).map Prod.fst).Nodup := by
        have hpk : ((sortByKey (fs.map (fun kv => (kv.1, canon kv.2)))).map Prod.fst).Perm
            ((fs.map (fun kv => (kv.1, canon kv.2))).map Prod.fst) :=
          (sortByKey_perm _).map Prod.fst
        apply hpk.nodup_iff.mpr
        rw [List.map_map]
        simpa [Function.comp] using hnd
      have hmid : (fs.map (fun kv => (kv.1, canon kv.2))).Perm
          (gs.map (fun kv => (kv.1, canon kv.2))) := by
        rw [hmapeq]
        exact hperm.map _
      have hpm : (sortByKey (fs.map (fun kv => (kv.1, canon kv.2)))).Perm
          (sortByKey (gs.map (fun kv => (kv.1, canon kv.2)))) :=
        (sortByKey_perm _).trans (hmid.trans (sortByKey_perm _).symm)
      exact sorted_keys_nodup_eq _ _ (sortByKey_sorted _) (sortByKey_sorted _) hknd hpm

theorem lookupKey_map_canon (k : String) :
    ∀ fs : List (String × JValue),
      lookupKey k (fs.map (fun kv => (kv.1, canon kv.2))) = (lookupKey k fs).map canon
  | [] => rfl
  | kv :: rest => by
    simp only [List.map_cons, lookupKey]
    by_cases h : kv.1 = k
    · simp [h]
    · simp only [h, if_false]
      exact lookupKey_map_canon k rest

/-- On association lists with duplicate-free keys, `lookupKey` is invariant
under permutation. -/
theorem perm_nodupkeys_lookup (k : String) :
    ∀ {l1 l2 : List (String × JValue)}, l1.Perm l2 → (l1.map Prod.fst).Nodup →
      lookupKey k l1 = lookupKey k l2 := by
  intro l1 l2 hp
  induction hp with
  | nil => intro _; rfl
  | cons a _ ih =>
    intro hnd
    simp only [List.map_cons, List.nodup_cons] at hnd
    simp only [lookupKey]
    by_cases h : a.1 = k
    · simp [h]
    · simp only [h, if_false]
      exact ih hnd.2
  | swap a b l =>
    intro hnd
    simp only [List.map_cons, List.nodup_cons, List.mem_cons] at hnd
    simp only [lookupKey]
    by_cases h1 : b.1 = k <;> by_cases h2 : a.1 = k
    · exfalso
      exact hnd.1 (Or.inl (h1.trans h2.symm))
    · simp [h1, h2]
    · simp [h1, h2]
    · simp [h1, h2]
  | trans hp1 _ ih1 ih2 =>
    intro hnd
    rw [ih1 hnd]
    exact ih2 (((hp1.map Prod.fst).nodup_iff).mp hnd)

/-- Looking a key up in the canonical (sorted) field list of a well-formed
object gives the canonical form of the original field value. -/
theorem canon_obj_lookup (fs : List (String × JValue)) (k : String)
    (hnd : (fs.map Prod.fst).Nodup) :
    lookupKey k (sortByKey (fs.map (fun kv => (kv.1, canon kv.2)))) =
      (lookupKey k fs).map canon := by
  have hknd : ((sortByKey (fs.map (fun kv => (kv.1, canon kv.2)))).map Prod.fst).Nodup := by
    have hpk := (sortByKey_perm (fs.map (fun kv => (kv.1, canon kv.2)))).map Prod.fst
    apply hpk.nodup_iff.mpr
    rw [List.map_map]
    simpa [Function.comp] using hnd
  rw [perm_nodupkeys_lookup k (sortByKey_perm _) hknd]
  exact lookupKey_map_canon k fs

/-- `Syncer.eq` succeeds exactly on values with equal canonical forms: the
digests of the marshalled values agree iff `encoding/json`'s key-sorted
serializations agree, iff the canonical forms agree (by injectivity of the
serializer and the idealized collision-freeness of SHA-256). -/
theorem eq_iff_canon (v1 v2 : JValue) : eq v1 v2 = true ↔ canon v1 = canon v2 := by
  unfold eq sha256sum marshal
  rw [decide_eq_true_iff]
  constructor
  · exact fun h => serRaw_inj _ _ h
  · intro h
    rw [h]

/-- Claim C7: the document equality check canonicalizes mapping field order
at every nesting level before hashing.  First conjunct: two well-formed
documents with identical field values but different field ordering
(`Reorder`) produce equal digests, so `eq` returns `true`.  Second conjunct:
two well-formed documents that differ in the value of any field (a shared
field name whose two values have distinct canonical forms) produce different
digests, so `eq` returns `false`. -/
theorem eq_canonical_field_order :
    (∀ v1 v2 : JValue, WFJ v1 → Reorder v1 v2 → eq v1 v2 = true) ∧
    (∀ (fs1 fs2 : List (String × JValue)) (k : String) (a b : JValue),
      WFJ (.obj fs1) → WFJ (.obj fs2) →
      lookupKey k fs1 = some a → lookupKey k fs2 = some b →
      canon a ≠ canon b →
      eq (.obj fs1) (.obj fs2) = false) := by
  constructor
  · intro v1 v2 hwf hr
    exact (eq_iff_canon v1 v2).mpr (reorder_canon hr hwf)
  · intro fs1 fs2 k a b hwf1 hwf2 hl1 hl2 hne
    cases hx : eq (.obj fs1) (.obj fs2) with
    | false => rfl
    | true =>
      exfalso
      have hc := (eq_iff_canon _ _).mp hx
      rw [canon_obj, canon_obj] at hc
      cases hwf1 with
      | obj hnd1 _ =>
        cases hwf2 with
        | obj hnd2 _ =>
          have hfields : sortByKey (fs1.map (fun kv => (kv.1, canon kv.2))) =
              sortByKey (fs2.map (fun kv => (kv.1, canon kv.2))) := by
            injection hc
          have h1 := canon_obj_lookup fs1 k hnd1
          have h2 := canon_obj_lookup fs2 k hnd2
          rw [hfields, h2] at h1
          rw [hl1, hl2] at h1
          simp only [Option.map_some'] at h1
          exact hne (Option.some.inj h1).symm

/-- Claim C7 witness: the two-field document with fields in either order
digests equally; two one-field documents with different values for the same
field digest differently. -/
theorem eq_canonical_field_order_witness :
    eq (.obj [("a", JValue.num 1), ("b", JValue.str "x")])
       (.obj [("b", JValue.str "x"), ("a", JValue.num 1)]) = true ∧
    eq (.obj [("a", JValue.num 1)]) (.obj [("a", JValue.num 2)]) = false := by
  have hwf1 : WFJ (.obj [("a", JValue.num 1), ("b", JValue.str "x")]) := by
    refine WFJ.obj (by decide) ?_
    intro kv hkv
    rcases List.mem_cons.mp hkv with rfl | h2
    · exact WFJ.num 1
    · rcases List.mem_cons.mp h2 with rfl | h3
      · exact WFJ.str "x"
      · simp at h3
  have hre : Reorder (.obj [("a", JValue.num 1), ("b", JValue.str "x")])
      (.obj [("b", JValue.str "x"), ("a", JValue.num 1)]) := by
    refine Reorder.obj
      (Eq.refl ([("a", JValue.num 1), ("b", JValue.str "x")] : List (String × JValue)).length)
      ?_ ?_ ?_
    · intro i h1 h2
      rfl
    · intro i h1 h2
      rcases i with _ | _ | i
      · exact Reorder.num 1
      · exact Reorder.str "x"
      · simp only [List.length_cons, List.length_nil] at h1
        omega
    · exact List.Perm.swap ("b", JValue.str "x") ("a", JValue.num 1) []
  have hwfa : WFJ (.obj [("a", JValue.num 1)]) := by
    refine WFJ.obj (by decide) ?_
    intro kv hkv
    rcases List.mem_cons.mp hkv with rfl | h2
    · exact WFJ.num 1
    · simp at h2
  have hwfb : WFJ (.obj [("a", JValue.num 2)]) := by
    refine WFJ.obj (by decide) ?_
    intro kv hkv
    rcases List.mem_cons.mp hkv with rfl | h2
    · exact WFJ.num 2
    · simp at h2
  constructor
  · exact eq_canonical_field_order.1 _ _ hwf1 hre
  · refine eq_canonical_field_order.2 [("a", JValue.num 1)] [("a", JValue.num 2)]
      "a" (JValue.num 1) (JValue.num 2) hwfa hwfb rfl rfl ?_
    rw [canon_num, canon_num]
    simp

end Vaultsync
